import Mathlib

/-!
# Verification of the attack-graph enumeration and ranking core

Shallow embedding of `src/graph.py` (the `AttackGraph` class: construction,
adjacency, bounded DFS path enumeration) and `src/models.py` (per-path metric
functions and the utility score), together with a model of the `planner`
module's `rank_paths` (absent from the sources; modelled from the spec).

Python floats are modelled as rationals (`ℚ`); `math.log` is modelled by
`Real.log` on the rational value coerced to `ℝ`.  A Python `dict` edge record
is modelled as a structure whose optional numeric attributes are `Option ℚ`
(`e.get(key, default)` becomes `Option.getD`).  The Python `set` used for
`seen` is modelled as a duplicate-free list with membership, `add` and
`discard` operations; `set(...)` construction is modelled by `List.dedup`.
-/

namespace AG

/-- An edge record whose required `src`/`dst` fields are present, as consumed
by `AttackGraph._dfs` (`e["dst"]`) and by the metric functions of
`models.py`.  The numeric attributes are optional, with the defaults applied
at the use site exactly as `e.get("p", 0.5)` etc. do. -/
structure Edge where
  src : String
  dst : String
  technique : Option String
  p : Option ℚ
  impact : Option ℚ
  detect : Option ℚ
  time : Option ℚ
deriving DecidableEq, Repr

/-- `self.adj.setdefault(e["src"], []).append(e)`: append `e` to the entry of
key `k`, creating the entry (at the end, as dict insertion does) if absent. -/
def adjInsert {α : Type} : List (String × List α) → String → α → List (String × List α)
  | [], k, e => [(k, [e])]
  | (k', es) :: rest, k, e =>
    if k' = k then (k', es ++ [e]) :: rest else (k', es) :: adjInsert rest k e

/-- The constructor loop `for e in edges: self.adj.setdefault(e["src"], []).append(e)`. -/
def buildAdj (edges : List Edge) : List (String × List Edge) :=
  edges.foldl (fun a e => adjInsert a e.src e) []

/-- `self.adj.get(node, [])`. -/
def lookupAdj {α : Type} : List (String × List α) → String → List α
  | [], _ => []
  | (k, es) :: rest, n => if k = n then es else lookupAdj rest n

/-- The `AttackGraph` object after a successful `__init__`:
`assets = set(assets) | set(start_nodes) | set(goal_nodes)`,
`start_nodes = set(start_nodes)`, `goal_nodes = set(goal_nodes)`,
`edges` kept as given, `adj` the per-source adjacency index. -/
structure AttackGraph where
  assets : List String
  start_nodes : List String
  goal_nodes : List String
  edges : List Edge
  adj : List (String × List Edge)
deriving DecidableEq, Repr

/-- `AttackGraph.__init__` on inputs whose edge records are well-formed. -/
def AttackGraph.make (assets start_nodes goal_nodes : List String)
    (edges : List Edge) : AttackGraph :=
  { assets := (assets ++ start_nodes ++ goal_nodes).dedup
    start_nodes := start_nodes.dedup
    goal_nodes := goal_nodes.dedup
    edges := edges
    adj := buildAdj edges }

/-- `AttackGraph.neighbors`: `return self.adj.get(node, [])`. -/
def AttackGraph.neighbors (g : AttackGraph) (node : String) : List Edge :=
  lookupAdj g.adj node

/-- `seen.add(x)` on the set-as-list model. -/
def seenAdd (seen : List String) (x : String) : List String :=
  if x ∈ seen then seen else x :: seen

/-- `seen.discard(x)` on the set-as-list model. -/
def seenDiscard (seen : List String) (x : String) : List String :=
  seen.filter (fun y => y ≠ x)

mutual

/-- `AttackGraph._dfs`.  The Python method mutates the shared `paths`
accumulator and the `seen` set; here it returns the list of paths it records
(in recording order) together with the final state of `seen` (the body's
`seen.add` / `seen.discard` calls threaded through the edge loop). -/
def dfs (g : AttackGraph) (maxDepth : Nat) (current : String) (path : List Edge)
    (seen : List String) : List (List Edge) × List String :=
  if h : path.length > maxDepth then ([], seen)
  else if current ∈ g.goal_nodes then ([path], seen)
  else dfsEdges g maxDepth (g.neighbors current) path seen (Nat.le_of_not_lt h)
termination_by (maxDepth + 1 - path.length, (g.neighbors current).length + 1)

/-- The `for e in self.neighbors(current):` loop body of `_dfs`, over the
remaining edges `es`, threading the `seen` state from one iteration to the
next.  `hlen` records that the loop is only reached when the depth guard
passed. -/
def dfsEdges (g : AttackGraph) (maxDepth : Nat) (es : List Edge) (path : List Edge)
    (seen : List String) (hlen : path.length ≤ maxDepth) :
    List (List Edge) × List String :=
  match es with
  | [] => ([], seen)
  | e :: rest =>
    if e.dst ∈ seen ∧ e.dst ∉ g.goal_nodes then
      dfsEdges g maxDepth rest path seen hlen
    else
      let r := dfs g maxDepth e.dst (path ++ [e]) (seenAdd seen e.dst)
      let r2 := dfsEdges g maxDepth rest path (seenDiscard r.2 e.dst) hlen
      (r.1 ++ r2.1, r2.2)
termination_by (maxDepth + 1 - path.length, es.length)

end

/-- `AttackGraph.enumerate_paths`: one DFS per start node, accumulating into
the shared `paths` list. -/
def AttackGraph.enumerate_paths (g : AttackGraph) (max_depth : Nat) : List (List Edge) :=
  g.start_nodes.foldl (fun paths s => paths ++ (dfs g max_depth s [] [s]).1) []

/-! ## Construction on raw records (`AttackGraph.__init__` as written) -/

/-- A raw edge record as supplied to the constructor: a Python dict in which
even the `src`/`dst` keys may be absent.  The constructor itself reads only
`e["src"]`. -/
structure RawEdge where
  src : Option String
  dst : Option String
  technique : Option String
  p : Option ℚ
  impact : Option ℚ
  detect : Option ℚ
  time : Option ℚ
deriving DecidableEq, Repr

/-- A Python exception escaping `AttackGraph.__init__`: `e["src"]` on a dict
without that key raises `KeyError("src")`. -/
inductive PyErr where
  | keyError (key : String)
deriving DecidableEq, Repr

/-- The graph object produced by a successful `__init__` on raw records. -/
structure RawGraph where
  assets : List String
  start_nodes : List String
  goal_nodes : List String
  edges : List RawEdge
  adj : List (String × List RawEdge)
deriving DecidableEq, Repr

/-- One iteration of the constructor's adjacency loop on a raw record:
`self.adj.setdefault(e["src"], []).append(e)`, where `e["src"]` either yields
the key or raises `KeyError("src")`; no other key of the record is read. -/
def rawStep (a : List (String × List RawEdge)) (e : RawEdge) :
    Except PyErr (List (String × List RawEdge)) :=
  match e.src with
  | none => .error (.keyError "src")
  | some s => .ok (adjInsert a s e)

/-- The constructor's adjacency loop `for e in edges: ...` on raw records. -/
def buildAdjRaw (edges : List RawEdge) : Except PyErr (List (String × List RawEdge)) :=
  edges.foldlM rawStep []

/-- `AttackGraph.__init__` on raw records: the asset/start/goal sets are
formed, then the adjacency loop runs; if it raises, the exception propagates
and no object is produced. -/
def mkGraph (assets start_nodes goal_nodes : List String) (edges : List RawEdge) :
    Except PyErr RawGraph :=
  match buildAdjRaw edges with
  | .error err => .error err
  | .ok adj =>
    .ok { assets := (assets ++ start_nodes ++ goal_nodes).dedup
          start_nodes := start_nodes.dedup
          goal_nodes := goal_nodes.dedup
          edges := edges
          adj := adj }

/-! ## `src/models.py`: per-path metrics and utility -/

/-- `path_success_probability`: `p = 1.0; for e in path: p *= max(0.0, min(1.0,
float(e.get("p", 0.5))))`. -/
def path_success_probability (path : List Edge) : ℚ :=
  path.foldl (fun p e => p * max 0 (min 1 ((e.p).getD (1/2)))) 1

/-- `path_impact`: `sum(float(e.get("impact", 1.0)) for e in path)`. -/
def path_impact (path : List Edge) : ℚ :=
  (path.map (fun e => (e.impact).getD 1)).sum

/-- `path_detectability`: `sum(float(e.get("detect", 0.3)) for e in path)`. -/
def path_detectability (path : List Edge) : ℚ :=
  (path.map (fun e => (e.detect).getD (3/10))).sum

/-- `path_time`: `sum(float(e.get("time", 1.0)) for e in path)`. -/
def path_time (path : List Edge) : ℚ :=
  (path.map (fun e => (e.time).getD 1)).sum

/-- `utility(path, wI, wD, wT, wP)`:
`P = max(1e-9, path_success_probability(path))` and
`wI*I + wP*math.log(P) - wD*D - wT*T`. -/
noncomputable def utility (path : List Edge) (wI wD wT wP : ℝ) : ℝ :=
  let P : ℝ := max (1 / 1000000000) ((path_success_probability path : ℚ) : ℝ)
  let I : ℝ := ((path_impact path : ℚ) : ℝ)
  let D : ℝ := ((path_detectability path : ℚ) : ℝ)
  let T : ℝ := ((path_time path : ℚ) : ℝ)
  wI * I + wP * Real.log P - wD * D - wT * T

/-- `utility` applied with the declared default weights
`wI=1.0, wD=0.5, wT=0.1, wP=1.0`. -/
noncomputable def utility_default (path : List Edge) : ℝ :=
  utility path 1 (1 / 2) (1 / 10) 1

/-! ## The `planner` module's `rank_paths` (modelled from the spec) -/

/-- A Ranked Path Record: the path plus its four metrics and utility, under
the keys `path`, `prob`, `impact`, `detect`, `time`, `utility` read by the
callers in `cli.py`, `graph_viz.py` and `mock_workflow.py`. -/
structure RankedRecord where
  path : List Edge
  prob : ℚ
  impact : ℚ
  detect : ℚ
  time : ℚ
  utility : ℝ

/-- The record built for one path under the given weights. -/
noncomputable def mkRecord (wI wD wT wP : ℝ) (p : List Edge) : RankedRecord :=
  { path := p
    prob := path_success_probability p
    impact := path_impact p
    detect := path_detectability p
    time := path_time p
    utility := utility p wI wD wT wP }

/-- The descending-by-utility ordering used for ranking. -/
def utilGE (a b : RankedRecord) : Prop := b.utility ≤ a.utility

noncomputable instance : DecidableRel utilGE := fun _ _ => Real.decidableLE _ _

instance : IsTotal RankedRecord utilGE := ⟨fun a b => le_total b.utility a.utility⟩

instance : IsTrans RankedRecord utilGE := ⟨fun _ _ _ hab hbc => le_trans hbc hab⟩

/-- Modelled from the spec: `rank_paths` lives in the `planner` module, which
is absent from the sources (only its callers are present).  Per §4.2 of the
spec it computes the four metrics and the utility for every input path, sorts
descending by utility with a stable sort (ties keep enumeration order),
truncates to the first `topK` entries, with `topK ≤ 0` meaning "return all",
and returns the retained Ranked Path Records. -/
noncomputable def rank_paths (paths : List (List Edge)) (wI wD wT wP : ℝ)
    (top_k : ℤ) : List RankedRecord :=
  let sorted := (paths.map (mkRecord wI wD wT wP)).insertionSort utilGE
  if top_k ≤ 0 then sorted else sorted.take top_k.toNat

/-! ## Helper lemmas about the adjacency index and the set-as-list model -/

theorem lookupAdj_adjInsert {α : Type} (adj : List (String × List α)) (k n : String) (e : α) :
    lookupAdj (adjInsert adj k e) n
      = if n = k then lookupAdj adj n ++ [e] else lookupAdj adj n := by
  induction adj with
  | nil =>
    by_cases h : n = k
    · subst h; simp [adjInsert, lookupAdj]
    · simp [adjInsert, lookupAdj, h, Ne.symm h]
  | cons hd tl ih =>
    obtain ⟨k', es⟩ := hd
    by_cases h1 : k' = k
    · subst h1
      by_cases h2 : n = k'
      · subst h2; simp [adjInsert, lookupAdj]
      · simp [adjInsert, lookupAdj, h2, Ne.symm h2]
    · by_cases h2 : k' = n
      · subst h2
        simp [adjInsert, lookupAdj, h1, Ne.symm h1]
      · simp [adjInsert, lookupAdj, h1, h2, ih]

theorem lookupAdj_foldl (edges : List Edge) (adj : List (String × List Edge)) (n : String) :
    lookupAdj (edges.foldl (fun a e => adjInsert a e.src e) adj) n
      = lookupAdj adj n ++ edges.filter (fun e => e.src = n) := by
  induction edges generalizing adj with
  | nil => simp
  | cons e rest ih =>
    rw [List.foldl_cons, ih, lookupAdj_adjInsert, List.filter_cons]
    by_cases h : e.src = n
    · simp [h, List.append_assoc]
    · simp [h, Ne.symm h]

/-- The adjacency index built by the constructor indexes, for each node, the
sublist of supplied edges with that node as `src`, in supply order. -/
theorem neighbors_make (assets starts goals : List String) (edges : List Edge) (n : String) :
    (AttackGraph.make assets starts goals edges).neighbors n
      = edges.filter (fun e => e.src = n) := by
  simp [AttackGraph.neighbors, AttackGraph.make, buildAdj, lookupAdj_foldl, lookupAdj]

theorem mem_seenAdd {seen : List String} {x y : String} :
    x ∈ seenAdd seen y ↔ x = y ∨ x ∈ seen := by
  unfold seenAdd
  split <;> rename_i h
  · constructor
    · exact fun hx => Or.inr hx
    · rintro (rfl | hx) <;> assumption
  · simp

theorem mem_seenDiscard {l : List String} {x y : String} :
    x ∈ seenDiscard l y ↔ x ∈ l ∧ x ≠ y := by
  simp [seenDiscard]

theorem mem_foldl_append {β : Type} (f : String → List β) (l : List String)
    (acc : List β) (x : β) :
    (x ∈ l.foldl (fun a s => a ++ f s) acc) ↔ x ∈ acc ∨ ∃ s ∈ l, x ∈ f s := by
  induction l generalizing acc with
  | nil => simp
  | cons s rest ih =>
    rw [List.foldl_cons, ih]
    simp [or_assoc]

/-! ## Evolution of the `seen` set across a DFS call

The Python `_dfs` mutates `seen` via balanced `add`/`discard` pairs, except
that `discard` may remove an element that was already present before the
`add`; such an element is necessarily a goal node (a non-goal member of
`seen` is never traversed into).  Hence a DFS call can only shrink `seen`,
and it preserves every non-goal member. -/

mutual

theorem dfs_seen (g : AttackGraph) (maxDepth : ℕ) (current : String) (path : List Edge)
    (seen : List String) :
    (∀ x ∈ (dfs g maxDepth current path seen).2, x ∈ seen) ∧
    (∀ x ∈ seen, x ∉ g.goal_nodes → x ∈ (dfs g maxDepth current path seen).2) := by
  rw [dfs]
  split
  · exact ⟨fun x hx => hx, fun x hx _ => hx⟩
  · split
    · exact ⟨fun x hx => hx, fun x hx _ => hx⟩
    · exact dfsEdges_seen g maxDepth (g.neighbors current) path seen _
termination_by (maxDepth + 1 - path.length, (g.neighbors current).length + 1)

theorem dfsEdges_seen (g : AttackGraph) (maxDepth : ℕ) (es : List Edge) (path : List Edge)
    (seen : List String) (hlen : path.length ≤ maxDepth) :
    (∀ x ∈ (dfsEdges g maxDepth es path seen hlen).2, x ∈ seen) ∧
    (∀ x ∈ seen, x ∉ g.goal_nodes → x ∈ (dfsEdges g maxDepth es path seen hlen).2) := by
  match es with
  | [] =>
    rw [dfsEdges]
    exact ⟨fun x hx => hx, fun x hx _ => hx⟩
  | e :: rest =>
    rw [dfsEdges]
    split
    · exact dfsEdges_seen g maxDepth rest path seen hlen
    · rename_i hskip
      have hr := dfs_seen g maxDepth e.dst (path ++ [e]) (seenAdd seen e.dst)
      have hr2 := dfsEdges_seen g maxDepth rest path
        (seenDiscard (dfs g maxDepth e.dst (path ++ [e]) (seenAdd seen e.dst)).2 e.dst) hlen
      refine ⟨fun x hx => ?_, fun x hx hng => ?_⟩
      · have h1 := hr2.1 x hx
        rw [mem_seenDiscard] at h1
        have h2 := hr.1 x h1.1
        rw [mem_seenAdd] at h2
        rcases h2 with h2 | h2
        · exact absurd h2 h1.2
        · exact h2
      · have h1 : x ∈ seenAdd seen e.dst := mem_seenAdd.mpr (Or.inr hx)
        have h2 := hr.2 x h1 hng
        have hne : x ≠ e.dst := by
          by_cases hg : e.dst ∈ g.goal_nodes
          · intro hxe; exact hng (hxe ▸ hg)
          · intro hxe
            exact hskip ⟨hxe ▸ hx, hg⟩
        exact hr2.2 x (mem_seenDiscard.mpr ⟨h2, hne⟩) hng
termination_by (maxDepth + 1 - path.length, es.length)

end

/-! ## The recording invariant of the DFS -/

/-- The final node of a path anchored at start `s`: the `dst` of its last
edge, or `s` itself for a zero-edge path. -/
def finalNode (s : String) (p : List Edge) : String :=
  match p.getLast? with
  | none => s
  | some e => e.dst

/-- The nodes a path starting at `s` visits, in order. -/
def visited (s : String) (p : List Edge) : List String :=
  s :: p.map (fun e => e.dst)

theorem finalNode_concat (s : String) (p : List Edge) (e : Edge) :
    finalNode s (p ++ [e]) = e.dst := by
  simp [finalNode, List.getLast?_concat]

theorem visited_concat (s : String) (p : List Edge) (e : Edge) :
    visited s (p ++ [e]) = visited s p ++ [e.dst] := by
  simp [visited]

mutual

theorem dfs_paths_inv (g : AttackGraph) (maxD : ℕ) (s current : String) (path : List Edge)
    (seen : List String)
    (h1 : finalNode s path = current)
    (h2 : ((visited s path).filter (fun n => n ∉ g.goal_nodes)).Nodup)
    (h3 : ∀ n ∈ visited s path, n ∉ g.goal_nodes → n ∈ seen)
    (h4 : ∀ e ∈ path.dropLast, e.dst ∉ g.goal_nodes) :
    ∀ q ∈ (dfs g maxD current path seen).1,
      q.length ≤ maxD ∧ finalNode s q ∈ g.goal_nodes ∧
      ((visited s q).filter (fun n => n ∉ g.goal_nodes)).Nodup ∧
      ∀ e ∈ q.dropLast, e.dst ∉ g.goal_nodes := by
  rw [dfs]
  split
  · intro q hq; simp at hq
  · split
    · rename_i hdep hgoal
      intro q hq
      simp only [List.mem_singleton] at hq
      subst hq
      exact ⟨Nat.le_of_not_lt hdep, h1 ▸ hgoal, h2, h4⟩
    · rename_i hdep hgoal
      exact dfsEdges_paths_inv g maxD s current (g.neighbors current) path seen
        (Nat.le_of_not_lt hdep) h1 hgoal h2 h3 h4
termination_by (maxD + 1 - path.length, (g.neighbors current).length + 1)

theorem dfsEdges_paths_inv (g : AttackGraph) (maxD : ℕ) (s current : String)
    (es : List Edge) (path : List Edge) (seen : List String)
    (hlen : path.length ≤ maxD)
    (h1 : finalNode s path = current)
    (hcg : current ∉ g.goal_nodes)
    (h2 : ((visited s path).filter (fun n => n ∉ g.goal_nodes)).Nodup)
    (h3 : ∀ n ∈ visited s path, n ∉ g.goal_nodes → n ∈ seen)
    (h4 : ∀ e ∈ path.dropLast, e.dst ∉ g.goal_nodes) :
    ∀ q ∈ (dfsEdges g maxD es path seen hlen).1,
      q.length ≤ maxD ∧ finalNode s q ∈ g.goal_nodes ∧
      ((visited s q).filter (fun n => n ∉ g.goal_nodes)).Nodup ∧
      ∀ e ∈ q.dropLast, e.dst ∉ g.goal_nodes := by
  match es with
  | [] =>
    rw [dfsEdges]
    intro q hq; simp at hq
  | e :: rest =>
    rw [dfsEdges]
    split
    · exact dfsEdges_paths_inv g maxD s current rest path seen hlen h1 hcg h2 h3 h4
    · rename_i hskip
      have hpath_all : ∀ e' ∈ path, e'.dst ∉ g.goal_nodes := by
        intro e' he'
        rcases List.eq_nil_or_concat path with hnil | ⟨l, a, hla⟩
        · subst hnil; simp at he'
        · rw [List.concat_eq_append] at hla
          subst hla
          rw [List.dropLast_concat] at h4
          rcases List.mem_append.mp he' with h | h
          · exact h4 e' h
          · simp only [List.mem_singleton] at h
            subst h
            have hac : e'.dst = current := (finalNode_concat s l e').symm.trans h1
            rw [hac]; exact hcg
      have h2c : ((visited s (path ++ [e])).filter (fun n => n ∉ g.goal_nodes)).Nodup := by
        rw [visited_concat, List.filter_append]
        by_cases hg : e.dst ∈ g.goal_nodes
        · simpa [hg] using h2
        · have hns : e.dst ∉ seen := fun hmem => hskip ⟨hmem, hg⟩
          have hnv : e.dst ∉ visited s path := fun hmem => hns (h3 e.dst hmem hg)
          rw [List.nodup_append]
          refine ⟨h2, by simp [hg], ?_⟩
          intro a ha ha'
          simp [hg] at ha'
          subst ha'
          exact hnv (List.mem_of_mem_filter ha)
      have h3c : ∀ n ∈ visited s (path ++ [e]), n ∉ g.goal_nodes → n ∈ seenAdd seen e.dst := by
        rw [visited_concat]
        intro n hn hng
        rcases List.mem_append.mp hn with h | h
        · exact mem_seenAdd.mpr (Or.inr (h3 n h hng))
        · simp only [List.mem_singleton] at h
          exact mem_seenAdd.mpr (Or.inl h)
      have h4c : ∀ e' ∈ (path ++ [e]).dropLast, e'.dst ∉ g.goal_nodes := by
        rw [List.dropLast_concat]
        exact hpath_all
      have hchild := dfs_paths_inv g maxD s e.dst (path ++ [e]) (seenAdd seen e.dst)
        (finalNode_concat s path e) h2c h3c h4c
      have h3s : ∀ n ∈ visited s path, n ∉ g.goal_nodes →
          n ∈ seenDiscard (dfs g maxD e.dst (path ++ [e]) (seenAdd seen e.dst)).2 e.dst := by
        intro n hn hng
        have hseen := h3 n hn hng
        have hin : n ∈ seenAdd seen e.dst := mem_seenAdd.mpr (Or.inr hseen)
        have hkept := (dfs_seen g maxD e.dst (path ++ [e]) (seenAdd seen e.dst)).2 n hin hng
        have hne : n ≠ e.dst := by
          by_cases hg : e.dst ∈ g.goal_nodes
          · intro hne'; exact hng (hne' ▸ hg)
          · intro hne'; exact hskip ⟨hne' ▸ hseen, hg⟩
        exact mem_seenDiscard.mpr ⟨hkept, hne⟩
      have hsib := dfsEdges_paths_inv g maxD s current rest path
        (seenDiscard (dfs g maxD e.dst (path ++ [e]) (seenAdd seen e.dst)).2 e.dst) hlen
        h1 hcg h2 h3s h4
      intro q hq
      dsimp only at hq
      rcases List.mem_append.mp hq with h | h
      · exact hchild q h
      · exact hsib q h
termination_by (maxD + 1 - path.length, es.length)

end

/-- Membership in the output of `enumerate_paths` is membership in the DFS
result of one of the start nodes. -/
theorem enumerate_mem (g : AttackGraph) (maxD : ℕ) (p : List Edge) :
    p ∈ g.enumerate_paths maxD ↔ ∃ s ∈ g.start_nodes, p ∈ (dfs g maxD s [] [s]).1 := by
  rw [AttackGraph.enumerate_paths, mem_foldl_append]
  simp

/-! ## Behaviour of the constructor's adjacency loop on raw records -/

theorem foldRawStep_ok (edges : List RawEdge) :
    ∀ acc, (∀ e ∈ edges, e.src ≠ none) →
      ∃ adj, edges.foldlM rawStep acc = Except.ok adj := by
  induction edges with
  | nil => exact fun acc _ => ⟨acc, rfl⟩
  | cons e rest ih =>
    intro acc h
    obtain ⟨s, hs⟩ := Option.ne_none_iff_exists'.mp (h e (List.mem_cons_self e rest))
    obtain ⟨adj, hadj⟩ := ih (adjInsert acc s e) (fun e' he' => h e' (List.mem_cons_of_mem e he'))
    refine ⟨adj, ?_⟩
    rw [List.foldlM_cons, rawStep, hs]
    simpa using hadj

theorem foldRawStep_error (edges : List RawEdge) :
    ∀ acc, (∃ e ∈ edges, e.src = none) →
      edges.foldlM rawStep acc = Except.error (PyErr.keyError "src") := by
  induction edges with
  | nil => simp
  | cons e rest ih =>
    intro acc h
    rw [List.foldlM_cons]
    match he : e.src with
    | none => rw [rawStep, he]; rfl
    | some s =>
      rw [rawStep, he]
      obtain ⟨e', he', hnone⟩ := h
      rcases List.mem_cons.mp he' with rfl | hmem
      · exact absurd hnone (by rw [he]; exact Option.some_ne_none s)
      · simpa using ih (adjInsert acc s e) ⟨e', hmem, hnone⟩

/-! ## Concrete graphs used in counterexamples and witnesses -/

/-- An edge `A → B` with no optional attributes. -/
def eAB : Edge := ⟨"A", "B", none, none, none, none, none⟩

/-- An edge `B → D` with no optional attributes. -/
def eBD : Edge := ⟨"B", "D", none, none, none, none, none⟩

/-- An edge `A → M` with no optional attributes. -/
def eAM : Edge := ⟨"A", "M", none, none, none, none, none⟩

/-- An edge `M → G` with no optional attributes. -/
def eMG : Edge := ⟨"M", "G", none, none, none, none, none⟩

/-- An edge whose stored success probability `1.5` is out of range. -/
def edgeP15 : Edge := ⟨"X", "Y", none, some (3 / 2), none, none, none⟩

/-- A raw edge record with `src` present and `dst` missing. -/
def rawNoDst : RawEdge := ⟨some "A", none, none, none, none, none, none⟩

/-- Start `A`, goal `B`, single edge `A → B`. -/
def g2 : AttackGraph := AttackGraph.make ["A", "B"] ["A"] ["B"] [eAB]

/-- Start `A`, goals `B` and `D`, edges `A → B` and `B → D`: the spec's
goal-behind-goal scenario. -/
def g7 : AttackGraph := AttackGraph.make ["A", "B", "D"] ["A"] ["B", "D"] [eAB, eBD]

/-- Start `A`, goal `G`, edges `A → M` and `M → G`: a two-edge path. -/
def gW : AttackGraph := AttackGraph.make ["A", "M", "G"] ["A"] ["G"] [eAM, eMG]

/-- A single node `S` that is both a start node and a goal node. -/
def gSG : AttackGraph := AttackGraph.make ["S"] ["S"] ["S"] []

theorem g2_enum_zero : g2.enumerate_paths 0 = [] := by
  simp [AttackGraph.enumerate_paths, g2, AttackGraph.make, buildAdj, adjInsert, eAB,
    dfs, dfsEdges, AttackGraph.neighbors, lookupAdj, seenAdd, seenDiscard]

theorem g2_enum_one : g2.enumerate_paths 1 = [[eAB]] := by
  simp [AttackGraph.enumerate_paths, g2, AttackGraph.make, buildAdj, adjInsert, eAB,
    dfs, dfsEdges, AttackGraph.neighbors, lookupAdj, seenAdd, seenDiscard]

theorem g7_enum : g7.enumerate_paths 5 = [[eAB]] := by
  simp [AttackGraph.enumerate_paths, g7, AttackGraph.make, buildAdj, adjInsert, eAB, eBD,
    dfs, dfsEdges, AttackGraph.neighbors, lookupAdj, seenAdd, seenDiscard]

theorem gW_enum : gW.enumerate_paths 5 = [[eAM, eMG]] := by
  simp [AttackGraph.enumerate_paths, gW, AttackGraph.make, buildAdj, adjInsert, eAM, eMG,
    dfs, dfsEdges, AttackGraph.neighbors, lookupAdj, seenAdd, seenDiscard]

/-! ## Claim theorems -/

/-- C1: every path returned by `enumerate_paths(maxDepth)` has at most
`maxDepth` edges, and its final node (the `dst` of its last edge, or the
originating start node for a zero-edge path) is a member of `goal_nodes`. -/
theorem enumerate_paths_depth_and_goal (g : AttackGraph) (maxD : ℕ) (p : List Edge)
    (hp : p ∈ g.enumerate_paths maxD) :
    p.length ≤ maxD ∧ ∃ s ∈ g.start_nodes, finalNode s p ∈ g.goal_nodes := by
  obtain ⟨s, hs, hmem⟩ := (enumerate_mem g maxD p).mp hp
  have h := dfs_paths_inv g maxD s s [] [s] rfl
    (List.Nodup.filter _ (List.nodup_singleton s))
    (fun n hn _ => hn)
    (fun e he => absurd he (List.not_mem_nil e))
    p hmem
  exact ⟨h.1, s, hs, h.2.1⟩

/-- Witness for C1 at the concrete graph `g7` and its returned path `A→B`. -/
theorem enumerate_paths_depth_and_goal_witness :
    ([eAB] : List Edge).length ≤ 5 ∧ ∃ s ∈ g7.start_nodes, finalNode s [eAB] ∈ g7.goal_nodes :=
  enumerate_paths_depth_and_goal g7 5 [eAB] (by rw [g7_enum]; simp)

/-- C2 (amended): if the current node is a goal node AND the accumulated path
has at most `maxDepth` edges, the path is recorded and the branch terminates
without expanding the goal node's outgoing edges; the depth check precedes
the goal check. -/
theorem dfs_records_goal_within_depth (g : AttackGraph) (maxD : ℕ) (current : String)
    (path : List Edge) (seen : List String)
    (hg : current ∈ g.goal_nodes) (hd : path.length ≤ maxD) :
    dfs g maxD current path seen = ([path], seen) := by
  rw [dfs, dif_neg (Nat.not_lt.mpr hd), if_pos hg]

/-- Witness for C2's amended claim: reaching goal `B` of `g2` with a one-edge
path under `maxDepth = 5` records that path and stops. -/
theorem dfs_records_goal_within_depth_witness :
    dfs g2 5 "B" [eAB] ["B", "A"] = ([[eAB]], ["B", "A"]) :=
  dfs_records_goal_within_depth g2 5 "B" [eAB] ["B", "A"]
    (by simp [g2, AttackGraph.make]) (by simp)

/-- Counterexample to C2 as stated: in `g2` (start `A`, goal `B`, edge
`A→B`) with `maxDepth = 0`, the traversal reaches current node `B ∈
goal_nodes` with the one-edge accumulated path, yet nothing is recorded —
the depth check fires first, so recording does NOT happen regardless of the
accumulated path's length.  With `maxDepth = 1` the same path is recorded,
so the goal is genuinely reachable. -/
theorem dfs_goal_beyond_depth_dropped :
    "B" ∈ g2.goal_nodes ∧ (dfs g2 0 "B" [eAB] ["B", "A"]).1 = [] ∧
    g2.enumerate_paths 0 = [] ∧ g2.enumerate_paths 1 = [[eAB]] := by
  refine ⟨by simp [g2, AttackGraph.make], ?_, g2_enum_zero, g2_enum_one⟩
  rw [dfs, dif_pos (by simp)]

/-- C3: the DFS prunes an edge whose destination is already in the branch's
`seen` set unless that destination is a goal node; consequently every
returned path, anchored at the start node it originated from, visits no
non-goal node more than once. -/
theorem dfs_no_nonGoal_revisit :
    (∀ (g : AttackGraph) (maxD : ℕ) (e : Edge) (rest path : List Edge)
        (seen : List String) (hlen : path.length ≤ maxD),
        e.dst ∈ seen → e.dst ∉ g.goal_nodes →
        dfsEdges g maxD (e :: rest) path seen hlen = dfsEdges g maxD rest path seen hlen)
    ∧ (∀ (g : AttackGraph) (maxD : ℕ) (p : List Edge), p ∈ g.enumerate_paths maxD →
        ∃ s ∈ g.start_nodes, ∀ n, n ∉ g.goal_nodes → (visited s p).count n ≤ 1) := by
  constructor
  · intro g maxD e rest path seen hlen h1 h2
    rw [dfsEdges]
    simp [h1, h2]
  · intro g maxD p hp
    obtain ⟨s, hs, hmem⟩ := (enumerate_mem g maxD p).mp hp
    have h := dfs_paths_inv g maxD s s [] [s] rfl
      (List.Nodup.filter _ (List.nodup_singleton s))
      (fun n hn _ => hn)
      (fun e he => absurd he (List.not_mem_nil e))
      p hmem
    refine ⟨s, hs, fun n hn => ?_⟩
    have hcount := List.nodup_iff_count_le_one.mp h.2.2.1 n
    rwa [List.count_filter (by simpa using hn)] at hcount

/-- Witness for C3 at the concrete graph `gW` and its returned two-edge path. -/
theorem dfs_no_nonGoal_revisit_witness :
    ∃ s ∈ gW.start_nodes, ∀ n, n ∉ gW.goal_nodes → (visited s [eAM, eMG]).count n ≤ 1 :=
  dfs_no_nonGoal_revisit.2 gW 5 [eAM, eMG] (by rw [gW_enum]; simp)

/-- C4: `path_success_probability` is the product of the independently
clamped per-edge probabilities (default `0.5`), `1` on the empty path, and an
edge storing `p = 1.5` contributes a clamped factor `1`; the other three
metrics are the sums of the per-edge attributes with defaults
`impact = 1.0`, `detect = 0.3`, `time = 1.0`. -/
theorem metric_formulas (path : List Edge) :
    path_success_probability path
        = (path.map (fun e => max 0 (min 1 ((e.p).getD (1 / 2))))).prod
    ∧ path_success_probability [] = 1
    ∧ path_impact path = (path.map (fun e => (e.impact).getD 1)).sum
    ∧ path_detectability path = (path.map (fun e => (e.detect).getD (3 / 10))).sum
    ∧ path_time path = (path.map (fun e => (e.time).getD 1)).sum
    ∧ path_success_probability [edgeP15] = 1 := by
  refine ⟨?_, rfl, rfl, rfl, rfl, by norm_num [path_success_probability, edgeP15]⟩
  rw [path_success_probability, List.prod_eq_foldl, List.foldl_map]

/-- C5: `utility` equals `wI·Impact + wP·ln(max(P, 1e-9)) − wD·Detectability
− wT·Time`; the argument of the logarithm is strictly positive (so the value
is a genuine, finite logarithm even for zero-probability paths); the default
weights are `wI=1.0, wD=0.5, wT=0.1, wP=1.0`. -/
theorem utility_formula (path : List Edge) (wI wD wT wP : ℝ) :
    utility path wI wD wT wP
        = wI * ((path_impact path : ℚ) : ℝ)
          + wP * Real.log (max ((path_success_probability path : ℚ) : ℝ) (1 / 1000000000))
          - wD * ((path_detectability path : ℚ) : ℝ)
          - wT * ((path_time path : ℚ) : ℝ)
    ∧ (0 : ℝ) < max ((path_success_probability path : ℚ) : ℝ) (1 / 1000000000)
    ∧ utility_default path = utility path 1 (1 / 2) (1 / 10) 1 := by
  refine ⟨?_, lt_max_of_lt_right (by norm_num), rfl⟩
  simp only [utility]
  rw [max_comm]

/-- C6 (spec-modelled): ranking sorts the records non-increasingly by
utility; the sorted list is a permutation of the input records in which every
run of equal-utility records keeps its input (enumeration) order — a stable
sort; the output is the sorted list truncated to `topK` entries, all of them
when `topK ≤ 0` or `topK` is at least the number of paths; an empty input
yields an empty output. -/
theorem rank_paths_spec (paths : List (List Edge)) (wI wD wT wP : ℝ) (top_k : ℤ) :
    List.Sorted utilGE (rank_paths paths wI wD wT wP top_k)
    ∧ ((paths.map (mkRecord wI wD wT wP)).insertionSort utilGE).Perm
        (paths.map (mkRecord wI wD wT wP))
    ∧ (∀ c, List.Sublist c (paths.map (mkRecord wI wD wT wP)) →
        c.Pairwise (fun a b => a.utility = b.utility) →
        List.Sublist c ((paths.map (mkRecord wI wD wT wP)).insertionSort utilGE))
    ∧ (top_k ≤ 0 → rank_paths paths wI wD wT wP top_k
        = (paths.map (mkRecord wI wD wT wP)).insertionSort utilGE)
    ∧ ((paths.length : ℤ) ≤ top_k → rank_paths paths wI wD wT wP top_k
        = (paths.map (mkRecord wI wD wT wP)).insertionSort utilGE)
    ∧ (0 < top_k → rank_paths paths wI wD wT wP top_k
        = ((paths.map (mkRecord wI wD wT wP)).insertionSort utilGE).take top_k.toNat)
    ∧ (paths = [] → rank_paths paths wI wD wT wP top_k = []) := by
  refine ⟨?_, List.perm_insertionSort utilGE _, ?_, ?_, ?_, ?_, ?_⟩
  · rw [rank_paths]
    split
    · exact List.sorted_insertionSort utilGE _
    · exact List.Pairwise.sublist (List.take_sublist _ _) (List.sorted_insertionSort utilGE _)
  · intro c hc hpair
    exact List.sublist_insertionSort (hpair.imp fun h => le_of_eq h.symm) hc
  · intro hk
    rw [rank_paths, if_pos hk]
  · intro hk
    by_cases hk0 : top_k ≤ 0
    · rw [rank_paths, if_pos hk0]
    · rw [rank_paths, if_neg hk0]
      refine List.take_of_length_le ?_
      rw [List.length_insertionSort, List.length_map]
      omega
  · intro hk
    rw [rank_paths, if_neg (by omega)]
  · intro hp
    subst hp
    rw [rank_paths]
    split <;> simp

/-- Witness for C6: ranking an empty path list yields an empty output. -/
theorem rank_paths_spec_witness : rank_paths [] 0 0 0 0 0 = [] :=
  (rank_paths_spec [] 0 0 0 0 0).2.2.2.2.2.2 rfl

/-- Counterexample to C7 as stated: in `g7` (start `A`, goals `B` and `D`,
edges `A→B` and `B→D`) the path `A→B` is returned but the longer path
`A→B→D` through goal `B` is not: reaching a goal terminates the branch, so
the claimed pair of output paths never occurs. -/
theorem goal_expansion_counterexample :
    eAB ∈ g7.edges ∧ eBD ∈ g7.edges ∧ eAB.dst = "B" ∧ eBD.src = "B" ∧ eBD.dst = "D" ∧
    "B" ∈ g7.goal_nodes ∧ "D" ∈ g7.goal_nodes ∧
    g7.enumerate_paths 5 = [[eAB]] ∧ [eAB, eBD] ∉ g7.enumerate_paths 5 := by
  refine ⟨by simp [g7, AttackGraph.make], by simp [g7, AttackGraph.make], rfl, rfl, rfl,
    by simp [g7, AttackGraph.make], by simp [g7, AttackGraph.make], g7_enum, ?_⟩
  rw [g7_enum]
  simp [eAB, eBD]

/-- C7 (amended): no returned path traverses a goal node at a non-final
position — reaching a goal terminates the branch — so in the goal-behind-goal
scenario `g7` only `A→B` is returned and `A→B→D` is not. -/
theorem no_goal_at_nonfinal_position :
    (∀ (g : AttackGraph) (maxD : ℕ) (p : List Edge), p ∈ g.enumerate_paths maxD →
      ∀ e ∈ p.dropLast, e.dst ∉ g.goal_nodes)
    ∧ [eAB] ∈ g7.enumerate_paths 5 ∧ [eAB, eBD] ∉ g7.enumerate_paths 5 := by
  refine ⟨?_, by rw [g7_enum]; simp, by rw [g7_enum]; simp [eAB, eBD]⟩
  intro g maxD p hp
  obtain ⟨s, _, hmem⟩ := (enumerate_mem g maxD p).mp hp
  exact (dfs_paths_inv g maxD s s [] [s] rfl
    (List.Nodup.filter _ (List.nodup_singleton s))
    (fun n hn _ => hn)
    (fun e he => absurd he (List.not_mem_nil e))
    p hmem).2.2.2

/-- Witness for C7's amended claim: the intermediate node `M` of the returned
path `A→M→G` of `gW` is not a goal node. -/
theorem no_goal_at_nonfinal_position_witness : eAM.dst ∉ gW.goal_nodes :=
  no_goal_at_nonfinal_position.1 gW 5 [eAM, eMG] (by rw [gW_enum]; simp) eAM (by simp)

/-- Counterexample to C8 as stated: an edge record with `src` present but
`dst` missing does NOT make the constructor fail — only `e["src"]` is read
during construction. -/
theorem mkGraph_missing_dst_ok :
    rawNoDst.dst = none ∧ (mkGraph ["A"] ["A"] ["B"] [rawNoDst]).isOk = true := by
  exact ⟨rfl, by decide⟩

/-- C8 (amended): the constructor fails — with a `KeyError("src")`, there
being no `ConfigurationError` in the code — exactly when some edge record is
missing the `src` field; missing `dst` alone never fails, dangling node
references never fail, and on success the complete graph object (all fields)
is produced, on failure none. -/
theorem mkGraph_spec (assets starts goals : List String) (edges : List RawEdge) :
    ((∃ e ∈ edges, e.src = none) ↔
      mkGraph assets starts goals edges = .error (.keyError "src"))
    ∧ ((∀ e ∈ edges, e.src ≠ none) →
      ∃ gr, mkGraph assets starts goals edges = .ok gr ∧ gr.edges = edges ∧
        gr.assets = (assets ++ starts ++ goals).dedup ∧
        gr.start_nodes = starts.dedup ∧ gr.goal_nodes = goals.dedup) := by
  constructor
  · constructor
    · intro h
      have hb : buildAdjRaw edges = .error (.keyError "src") := by
        rw [buildAdjRaw]; exact foldRawStep_error edges [] h
      rw [mkGraph, hb]
    · intro h
      by_contra hne
      push_neg at hne
      obtain ⟨adj, hadj⟩ := foldRawStep_ok edges []
        (fun e he => Option.ne_none_iff_exists'.mpr
          (match hsrc : e.src with
           | none => absurd hsrc (hne e he)
           | some s => ⟨s, rfl⟩))
      have hb : buildAdjRaw edges = .ok adj := by rw [buildAdjRaw]; exact hadj
      rw [mkGraph, hb] at h
      exact Except.noConfusion h
  · intro h
    obtain ⟨adj, hadj⟩ := foldRawStep_ok edges [] h
    have hb : buildAdjRaw edges = .ok adj := by rw [buildAdjRaw]; exact hadj
    exact ⟨_, by rw [mkGraph, hb], rfl, rfl, rfl, rfl⟩

/-- Witness for C8's amended claim: a well-formed single-edge input
constructs successfully with all fields populated. -/
theorem mkGraph_spec_witness :
    ∃ gr, mkGraph ["A"] ["A"] ["B"] [rawNoDst] = .ok gr ∧ gr.edges = [rawNoDst] ∧
      gr.assets = (["A"] ++ ["A"] ++ ["B"]).dedup ∧
      gr.start_nodes = (["A"] : List String).dedup ∧
      gr.goal_nodes = (["B"] : List String).dedup :=
  (mkGraph_spec ["A"] ["A"] ["B"] [rawNoDst]).2
    (fun e he => by
      rcases List.mem_singleton.mp he with rfl
      exact Option.some_ne_none "A")

/-- C9: `enumerate_paths` is a pure function of the construction inputs and
the depth bound — equal inputs give identical path lists in identical order —
and the outgoing edges consulted at each node are exactly the supplied edges
with that source, in the order they were supplied. -/
theorem enumerate_paths_deterministic (assets starts goals : List String)
    (edges : List Edge) (maxD : ℕ) (g₁ g₂ : AttackGraph)
    (h₁ : g₁ = AttackGraph.make assets starts goals edges)
    (h₂ : g₂ = AttackGraph.make assets starts goals edges) :
    g₁.enumerate_paths maxD = g₂.enumerate_paths maxD
    ∧ ∀ n, g₁.neighbors n = edges.filter (fun e => e.src = n) := by
  subst h₁; subst h₂
  exact ⟨rfl, fun n => neighbors_make assets starts goals edges n⟩

/-- Witness for C9 at the concrete graph `g2`. -/
theorem enumerate_paths_deterministic_witness :
    g2.enumerate_paths 1 = g2.enumerate_paths 1
    ∧ g2.neighbors "A" = [eAB].filter (fun e => e.src = "A") :=
  ⟨(enumerate_paths_deterministic ["A", "B"] ["A"] ["B"] [eAB] 1 g2 g2 rfl rfl).1,
   (enumerate_paths_deterministic ["A", "B"] ["A"] ["B"] [eAB] 1 g2 g2 rfl rfl).2 "A"⟩

/-- C10: whenever a node is both a start node and a goal node, the empty
path is among the outputs of `enumerate_paths` for every `maxDepth`; the
empty path has success probability `1` and impact, detectability and time
`0`. -/
theorem enumerate_paths_empty_path (g : AttackGraph) (maxD : ℕ) (s : String)
    (hs : s ∈ g.start_nodes) (hg : s ∈ g.goal_nodes) :
    [] ∈ g.enumerate_paths maxD ∧ path_success_probability [] = 1 ∧
    path_impact [] = 0 ∧ path_detectability [] = 0 ∧ path_time [] = 0 := by
  refine ⟨?_, rfl, rfl, rfl, rfl⟩
  rw [enumerate_mem]
  refine ⟨s, hs, ?_⟩
  rw [dfs, dif_neg (by simp), if_pos hg]
  simp

/-- Witness for C10 at the one-node graph `gSG`. -/
theorem enumerate_paths_empty_path_witness :
    [] ∈ gSG.enumerate_paths 0 ∧ path_success_probability [] = 1 ∧
    path_impact [] = 0 ∧ path_detectability [] = 0 ∧ path_time [] = 0 :=
  enumerate_paths_empty_path gSG 0 "S" (by simp [gSG, AttackGraph.make])
    (by simp [gSG, AttackGraph.make])

end AG
